import Mathlib

/-!
# Verification of `terragen.c`

A shallow embedding of the Diamond-Square terrain generator `terragen.c`
(procedural heightfield synthesis with isometric view fitting and
height-band coloring), together with proofs of the specified properties.

Modelling conventions:
* C `float` arithmetic is modelled over `ℚ`.  A float division whose
  denominator is zero produces no finite value; we model it with
  `Option ℚ` (`fdiv`), `none` standing for the non-finite result.
* The global `terrain[ITERATIONS][ITERATIONS]` buffer is a function
  `ℕ → ℕ → ℚ`, updated in place via `upd`.  The grid size `ITERATIONS`
  is kept as a parameter `N` (the source fixes `N = 257 = 2^8 + 1`).
* `rand()`-based noise is modelled by a stream `u : ℕ → ℚ` of unit
  draws (the value `(float)rand()/RAND_MAX * 2 - 1`), consumed in
  program order via a counter carried in the generation state.
* `ROUGHNESS` enters only through the per-iteration amplitude decay
  factor `2^(-ROUGHNESS)`, kept as a parameter `r`; the initial
  amplitude `INITIAL_HEIGHT` is the parameter `A`.
-/

set_option maxHeartbeats 1000000

/-- Two-dimensional point, modelling Raylib's `Vector2`. -/
structure Vec2 where
  x : ℚ
  y : ℚ
  deriving DecidableEq, Repr

/-- RGBA color, modelling Raylib's `Color`. -/
structure Color where
  red : ℕ
  green : ℕ
  blue : ℕ
  alpha : ℕ
  deriving DecidableEq, Repr

def COLOR_WATER : Color := ⟨30, 90, 180, 255⟩
def COLOR_SAND : Color := ⟨210, 180, 140, 255⟩
def COLOR_GRASS : Color := ⟨50, 150, 50, 255⟩
def COLOR_ROCK : Color := ⟨120, 100, 80, 255⟩
def COLOR_SNOW : Color := ⟨240, 240, 255, 255⟩

/-- Float division: a zero denominator yields no finite value
(`none` models the IEEE infinity/NaN the C expression produces). -/
def fdiv (a b : ℚ) : Option ℚ :=
  if b = 0 then none else some (a / b)

/-- Pointwise update of the terrain buffer: `terrain[a][b] = v`. -/
def upd (g : ℕ → ℕ → ℚ) (a b : ℕ) (v : ℚ) : ℕ → ℕ → ℚ :=
  fun x y => if x = a ∧ y = b then v else g x y

/-- Generation state: the terrain buffer plus the position in the
pseudo-random stream. -/
structure St where
  grid : ℕ → ℕ → ℚ
  idx : ℕ

/-- `calculate_noise`: one bounded pseudo-random displacement,
`((float)rand()/RAND_MAX * 2 - 1) * amplitude`, with `u i` the unit
draw of the stream at position `i`. -/
def calculate_noise (u : ℕ → ℚ) (i : ℕ) (amplitude : ℚ) : ℚ :=
  u i * amplitude

/-- All multiples of `step` that are `< bound` (ascending), the index
set of a C loop `for (v = 0; v < bound; v += step)`. -/
def multiplesBelow (step bound : ℕ) : List ℕ :=
  (List.range ((bound + step - 1) / step)).map (· * step)

/-- All values `start + k*step < bound` (ascending), the index set of a
C loop `for (v = start; v < bound; v += step)`. -/
def multiplesFrom (start step bound : ℕ) : List ℕ :=
  (List.range ((bound - start + step - 1) / step)).map (fun k => start + k * step)

/-- The `(x, y)` pairs visited by the SQUARE-step loops:
`for (x = 0; x < N-1; x += length) for (y = 0; y < N-1; y += length)`. -/
def squareCells (N length : ℕ) : List (ℕ × ℕ) :=
  (multiplesBelow length (N - 1)).flatMap
    (fun x => (multiplesBelow length (N - 1)).map (fun y => (x, y)))

/-- The `(x, y)` pairs visited by the DIAMOND-step loops:
`for (x = 0; x < N; x += half) for (y = (x + half) % length; y < N; y += length)`. -/
def diamondCells (N length half : ℕ) : List (ℕ × ℕ) :=
  (multiplesBelow half N).flatMap
    (fun x => (multiplesFrom ((x + half) % length) length N).map (fun y => (x, y)))

/-- One SQUARE-step write: average the four enclosing corners of the
square at `(x, y)` of side `length` and write it, plus noise, to the
center `(x + half, y + half)`. -/
def squareWrite (u : ℕ → ℚ) (length half : ℕ) (amplitude : ℚ) (s : St) (c : ℕ × ℕ) : St :=
  let average := (s.grid c.1 c.2 + s.grid (c.1 + length) c.2 +
    s.grid c.1 (c.2 + length) + s.grid (c.1 + length) (c.2 + length)) / 4
  { grid := upd s.grid (c.1 + half) (c.2 + half) (average + calculate_noise u s.idx amplitude)
    idx := s.idx + 1 }

/-- The divisor of a DIAMOND-step write: how many of the four guards
`x >= half`, `x + half < N`, `y >= half`, `y + half < N` hold. -/
def diamondCount (N half x y : ℕ) : ℕ :=
  (if half ≤ x then 1 else 0) + (if x + half < N then 1 else 0) +
    (if half ≤ y then 1 else 0) + (if y + half < N then 1 else 0)

/-- The numerator of a DIAMOND-step write: the sum of the guarded
neighbor reads at distance `half` in the four cardinal directions. -/
def diamondSum (g : ℕ → ℕ → ℚ) (N half x y : ℕ) : ℚ :=
  (if half ≤ x then g (x - half) y else 0) + (if x + half < N then g (x + half) y else 0) +
    (if half ≤ y then g x (y - half) else 0) + (if y + half < N then g x (y + half) else 0)

/-- One DIAMOND-step write: `terrain[x][y] = (sum / count) + noise`. -/
def diamondWrite (u : ℕ → ℚ) (N half : ℕ) (amplitude : ℚ) (s : St) (c : ℕ × ℕ) : St :=
  { grid := upd s.grid c.1 c.2
      (diamondSum s.grid N half c.1 c.2 / (diamondCount N half c.1 c.2 : ℚ) +
        calculate_noise u s.idx amplitude)
    idx := s.idx + 1 }

/-- The full SQUARE phase of one iteration (left fold in loop order). -/
def squareStep (u : ℕ → ℚ) (N length half : ℕ) (amplitude : ℚ) (s : St) : St :=
  (squareCells N length).foldl (squareWrite u length half amplitude) s

/-- The full DIAMOND phase of one iteration (left fold in loop order). -/
def diamondStep (u : ℕ → ℚ) (N length half : ℕ) (amplitude : ℚ) (s : St) : St :=
  (diamondCells N length half).foldl (diamondWrite u N half amplitude) s

/-- The `while (length > 1)` loop of `generate_terrain`: square phase,
diamond phase, then `length /= 2` and `amplitude *= 2^(-ROUGHNESS)`
(the decay factor is the parameter `r`). -/
def genFrom (u : ℕ → ℚ) (N : ℕ) (r : ℚ) (length : ℕ) (amplitude : ℚ) (s : St) : St :=
  if 1 < length then
    genFrom u N r (length / 2) (amplitude * r)
      (diamondStep u N length (length / 2) amplitude
        (squareStep u N length (length / 2) amplitude s))
  else s
  termination_by length
  decreasing_by exact Nat.div_lt_self (by omega) (by omega)

/-- `generate_terrain`: run the subdivision loop from `length = N - 1`
with the initial amplitude `A`. -/
def generate_terrain (u : ℕ → ℚ) (N : ℕ) (r A : ℚ) (s : St) : St :=
  genFrom u N r (N - 1) A s

/-- The value of `length` when the loop of `generate_terrain` exits. -/
def finalLen (length : ℕ) : ℕ :=
  if 1 < length then finalLen (length / 2) else length
  termination_by length
  decreasing_by exact Nat.div_lt_self (by omega) (by omega)

/-- How many iterations the loop of `generate_terrain` performs. -/
def loopIters (length : ℕ) : ℕ :=
  if 1 < length then loopIters (length / 2) + 1 else 0
  termination_by length
  decreasing_by exact Nat.div_lt_self (by omega) (by omega)

/-- The value of `amplitude` when the loop of `generate_terrain` exits. -/
def finalAmp (r : ℚ) (length : ℕ) (amplitude : ℚ) : ℚ :=
  if 1 < length then finalAmp r (length / 2) (amplitude * r) else amplitude
  termination_by length
  decreasing_by exact Nat.div_lt_self (by omega) (by omega)

/-- `reset_canvas_corners`: zero the four corner cells. -/
def reset_canvas_corners (N : ℕ) (g : ℕ → ℕ → ℚ) : ℕ → ℕ → ℚ :=
  upd (upd (upd (upd g 0 0 0) 0 (N - 1) 0) (N - 1) 0 0) (N - 1) (N - 1) 0

/-- All `(x, y)` with `x < N`, `y < N`, in the scan order of the nested
`for` loops of `calculate_min_max_height`. -/
def allCells (N : ℕ) : List (ℕ × ℕ) :=
  (List.range N).flatMap (fun x => (List.range N).map (fun y => (x, y)))

/-- `calculate_min_max_height`: scan the whole buffer for the minimum
and maximum elevation, starting both from `terrain[0][0]`. -/
def calculate_min_max_height (N : ℕ) (g : ℕ → ℕ → ℚ) : ℚ × ℚ :=
  (allCells N).foldl (fun mm c => (min mm.1 (g c.1 c.2), max mm.2 (g c.1 c.2)))
    (g 0 0, g 0 0)

/-- `calculate_normalized_height`: `(height - min) / (max - min)`; with
a degenerate range (`max = min`) the division has no finite result. -/
def calculate_normalized_height (height max_alt min_alt : ℚ) : Option ℚ :=
  fdiv (height - min_alt) (max_alt - min_alt)

/-- `calculate_height_color`: threshold chain on the normalized height
(inverted bands: snow at the low end, water at the high end). -/
def calculate_height_color (height max_alt min_alt : ℚ) : Option Color :=
  match calculate_normalized_height height max_alt min_alt with
  | none => none
  | some normalized =>
    some (if normalized < 1/5 then COLOR_SNOW
      else if normalized < 7/20 then COLOR_ROCK
      else if normalized < 13/20 then COLOR_GRASS
      else if normalized < 17/20 then COLOR_SAND
      else COLOR_WATER)

/-- `fminf` on possibly non-finite values: like IEEE `fminf`, a
non-finite operand (`none`) is dropped in favor of the other. -/
def minOpt : Option ℚ → Option ℚ → Option ℚ
  | none, b => b
  | some a, none => some a
  | some a, some b => some (min a b)

/-- The single bounding-box scan of `calculate_view_parameters`:
fold `(min_x, max_x, min_y, max_y)` over the projected points, starting
from the sentinels `(1e9, -1e9, 1e9, -1e9)`. -/
def scanBounds (pts : List Vec2) : ℚ × ℚ × ℚ × ℚ :=
  pts.foldl
    (fun mm p => (min mm.1 p.x, max mm.2.1 p.x, min mm.2.2.1 p.y, max mm.2.2.2 p.y))
    (10 ^ 9, -10 ^ 9, 10 ^ 9, -10 ^ 9)

/-- Viewport constants of `terragen.c`. -/
def SCREEN_WIDTH : ℚ := 800
def SCREEN_HEIGHT : ℚ := 700
def SCREEN_MARGIN : ℚ := 50
def UI_HEIGHT : ℚ := 90

/-- The computed view transform: `render_scale`, `offset_x`, `offset_y`. -/
structure ViewParams where
  render_scale : ℚ
  offset_x : ℚ
  offset_y : ℚ
  deriving DecidableEq, Repr

/-- `calculate_view_parameters` on the list of projected vertices:
bounding-box scan, per-axis scale factors, `fminf`, and centering
offsets.  When neither scale factor is finite the transform is `none`. -/
def calculate_view_parameters (pts : List Vec2) : Option ViewParams :=
  let mm := scanBounds pts
  let terrain_width := mm.2.1 - mm.1
  let terrain_height := mm.2.2.2 - mm.2.2.1
  let available_space_x := SCREEN_WIDTH - 2 * SCREEN_MARGIN
  let available_space_y := (SCREEN_HEIGHT - UI_HEIGHT) - 2 * SCREEN_MARGIN
  match minOpt (fdiv available_space_x terrain_width) (fdiv available_space_y terrain_height) with
  | none => none
  | some render_scale =>
    let scaled_width := terrain_width * render_scale
    let scaled_height := terrain_height * render_scale
    some ⟨render_scale,
      (SCREEN_WIDTH - scaled_width) / 2 - mm.1 * render_scale,
      (SCREEN_HEIGHT - UI_HEIGHT - scaled_height) / 2 + UI_HEIGHT - mm.2.2.1 * render_scale⟩

/-- The per-vertex transform of `draw_terrain_3d`: scale and offset the
base projection, then flip vertically (`SCREEN_HEIGHT - y`). -/
def screenPoint (t : ViewParams) (p : Vec2) : Vec2 :=
  ⟨p.x * t.render_scale + t.offset_x,
    SCREEN_HEIGHT - (p.y * t.render_scale + t.offset_y)⟩

/-- The `N × N` projected vertices `proj x y terrain[x][y]`, scanned in
the loop order of `calculate_view_parameters` (`y` outer, `x` inner). -/
def projectedVertices (N : ℕ) (proj : ℕ → ℕ → ℚ → Vec2) (g : ℕ → ℕ → ℚ) : List Vec2 :=
  (List.range N).flatMap (fun y => (List.range N).map (fun x => proj x y (g x y)))

/-- The five terrain bands, named from the spec. -/
inductive Band where
  | Snow | Rock | Grass | Sand | Water
  deriving DecidableEq, Repr

/-- Modelled from the spec: the band of a normalized height under the
inverted thresholds `t<0.20 → Snow, t<0.35 → Rock, t<0.65 → Grass,
t<0.85 → Sand, else → Water`. -/
def bandOfT (t : ℚ) : Band :=
  if t < 1/5 then .Snow
  else if t < 7/20 then .Rock
  else if t < 13/20 then .Grass
  else if t < 17/20 then .Sand
  else .Water

/-- The color assigned to each band. -/
def colorOfBand : Band → Color
  | .Snow => COLOR_SNOW
  | .Rock => COLOR_ROCK
  | .Grass => COLOR_GRASS
  | .Sand => COLOR_SAND
  | .Water => COLOR_WATER

/-- Modelled from the spec: the neighbors of `(x, y)` at distance
`half` in the four cardinal directions that lie inside the `N × N`
grid. -/
def specNeighbors (N half x y : ℕ) : List (ℕ × ℕ) :=
  (if half ≤ x then [(x - half, y)] else []) ++
    (if x + half < N then [(x + half, y)] else []) ++
    (if half ≤ y then [(x, y - half)] else []) ++
    (if y + half < N then [(x, y + half)] else [])

/-- `(a, b)` is one of the four corner cells of the `N × N` grid. -/
def isCorner (N a b : ℕ) : Prop :=
  (a = 0 ∨ a = N - 1) ∧ (b = 0 ∨ b = N - 1)

/-- Every cell of the sub-lattice of multiples of `h` inside the
`N × N` grid is bounded by `B` in absolute value. -/
def LatBounded (g : ℕ → ℕ → ℚ) (N h : ℕ) (B : ℚ) : Prop :=
  ∀ x y, x < N → y < N → h ∣ x → h ∣ y → |g x y| ≤ B

/-! ## Basic lemmas about the loop skeleton -/

lemma genFrom_exit (u : ℕ → ℚ) (N : ℕ) (r amp : ℚ) (s : St) :
    genFrom u N r 1 amp s = s := by
  rw [genFrom]
  norm_num

lemma finalLen_two_pow (k : ℕ) : finalLen (2 ^ k) = 1 := by
  induction k with
  | zero => rw [finalLen]; norm_num
  | succ n ih =>
    rw [finalLen]
    have h1 : (1:ℕ) ≤ 2 ^ n := Nat.one_le_two_pow
    have h2 : (2:ℕ) ^ (n + 1) = 2 ^ n * 2 := by rw [pow_succ]
    have h3 : 1 < 2 ^ (n + 1) := by omega
    have h4 : 2 ^ (n + 1) / 2 = 2 ^ n := by omega
    simp only [h3, if_true, h4, ih]

lemma loopIters_two_pow (k : ℕ) : loopIters (2 ^ k) = k := by
  induction k with
  | zero => rw [loopIters]; norm_num
  | succ n ih =>
    rw [loopIters]
    have h1 : (1:ℕ) ≤ 2 ^ n := Nat.one_le_two_pow
    have h2 : (2:ℕ) ^ (n + 1) = 2 ^ n * 2 := by rw [pow_succ]
    have h3 : 1 < 2 ^ (n + 1) := by omega
    have h4 : 2 ^ (n + 1) / 2 = 2 ^ n := by omega
    simp only [h3, if_true, h4, ih]

lemma finalAmp_two_pow (r : ℚ) (k : ℕ) : ∀ A : ℚ, finalAmp r (2 ^ k) A = A * r ^ k := by
  induction k with
  | zero => intro A; rw [finalAmp]; simp
  | succ n ih =>
    intro A
    rw [finalAmp]
    have h1 : (1:ℕ) ≤ 2 ^ n := Nat.one_le_two_pow
    have h2 : (2:ℕ) ^ (n + 1) = 2 ^ n * 2 := by rw [pow_succ]
    have h3 : 1 < 2 ^ (n + 1) := by omega
    have h4 : 2 ^ (n + 1) / 2 = 2 ^ n := by omega
    simp only [h3, if_true, h4, ih]
    ring

/-! ## Claim theorems: loop termination and diamond divisor -/

/-- C8: for every grid size `N = 2^k + 1` with `k ≥ 1`, the generation
loop terminates: starting from `step = N - 1` it performs exactly `k`
iterations, halving `step` and multiplying the amplitude by the decay
factor each time, and it exits exactly when `step` reaches `1` (a loop
entered with `step = 1` performs no work). -/
theorem diamond_square_loop_termination (N k : ℕ) (hN : N = 2 ^ k + 1) (hk : 1 ≤ k)
    (u : ℕ → ℚ) (r A : ℚ) :
    finalLen (N - 1) = 1 ∧ loopIters (N - 1) = k ∧ finalAmp r (N - 1) A = A * r ^ k ∧
      (∀ s amp, genFrom u N r 1 amp s = s) := by
  have h1 : (1:ℕ) ≤ 2 ^ k := Nat.one_le_two_pow
  have hN1 : N - 1 = 2 ^ k := by omega
  rw [hN1]
  exact ⟨finalLen_two_pow k, loopIters_two_pow k, finalAmp_two_pow r k A,
    fun s amp => genFrom_exit u N r amp s⟩

theorem diamond_square_loop_termination_witness :
    finalLen (9 - 1) = 1 ∧ loopIters (9 - 1) = 3 ∧
      finalAmp (1/2) (9 - 1) 50 = 50 * (1/2) ^ 3 ∧
      (∀ s amp, genFrom (fun _ => 0) 9 (1/2) 1 amp s = s) :=
  diamond_square_loop_termination 9 3 (by norm_num) (by norm_num) (fun _ => 0) (1/2) 50

/-- C9: the diamond-phase divisor is never zero: for every cell
`(x, y)` inside the `N × N` grid, with `half ≥ 1` and `2 * half ≤ N`
(as holds for every step of the loop), at least one of the four
neighbor guards holds, so `diamondCount ≥ 1`. -/
theorem diamond_count_positive (N half x y : ℕ) (hh : 1 ≤ half) (hN : 2 * half ≤ N)
    (hx : x < N) (hy : y < N) :
    (half ≤ x ∨ x + half < N ∨ half ≤ y ∨ y + half < N) ∧
      1 ≤ diamondCount N half x y := by
  refine ⟨by omega, ?_⟩
  unfold diamondCount
  split_ifs <;> omega

theorem diamond_count_positive_witness :
    ((2:ℕ) ≤ 0 ∨ 0 + 2 < 5 ∨ 2 ≤ 2 ∨ 2 + 2 < 5) ∧ 1 ≤ diamondCount 5 2 0 2 :=
  diamond_count_positive 5 2 0 2 (by norm_num) (by norm_num) (by norm_num) (by norm_num)

/-! ## Claim theorems: elevation classifier -/

/-- C4: for `min < max` and any elevation in `[min, max]`, the
classifier returns exactly the band determined by the normalized height
`t = (elevation - min) / (max - min)` under the inverted thresholds
`t<0.20→Snow, t<0.35→Rock, t<0.65→Grass, t<0.85→Sand, else→Water`;
in particular it yields Snow at `min` and Water at `max`. -/
theorem classifier_band_thresholds (e min_alt max_alt : ℚ) (hlt : min_alt < max_alt)
    (hlo : min_alt ≤ e) (hhi : e ≤ max_alt) :
    calculate_height_color e max_alt min_alt =
      some (colorOfBand (bandOfT ((e - min_alt) / (max_alt - min_alt)))) ∧
      calculate_height_color min_alt max_alt min_alt = some (colorOfBand .Snow) ∧
      calculate_height_color max_alt max_alt min_alt = some (colorOfBand .Water) := by
  have hne : max_alt - min_alt ≠ 0 := sub_ne_zero.mpr (ne_of_gt hlt)
  have hpos : 0 < max_alt - min_alt := by linarith
  refine ⟨?_, ?_, ?_⟩
  · simp only [calculate_height_color, calculate_normalized_height, fdiv, hne, if_neg,
      if_false, bandOfT, colorOfBand]
    split_ifs <;> rfl
  · have h0 : (min_alt - min_alt) / (max_alt - min_alt) = 0 := by
      rw [sub_self, zero_div]
    simp only [calculate_height_color, calculate_normalized_height, fdiv, hne, if_false, h0,
      colorOfBand]
    norm_num
  · have h1 : (max_alt - min_alt) / (max_alt - min_alt) = 1 := div_self hne
    simp only [calculate_height_color, calculate_normalized_height, fdiv, hne, if_false, h1,
      colorOfBand]
    norm_num

theorem classifier_band_thresholds_witness :
    calculate_height_color 1 2 0 = some (colorOfBand (bandOfT ((1 - 0) / (2 - 0)))) ∧
      calculate_height_color 0 2 0 = some (colorOfBand .Snow) ∧
      calculate_height_color 2 2 0 = some (colorOfBand .Water) :=
  classifier_band_thresholds 1 0 2 (by norm_num) (by norm_num) (by norm_num)

/-- C5: the claim that the classifier guards the flat-terrain case
fails on the code: with `max_alt = min_alt` the normalization
`(height - min) / (max - min)` is executed with a zero denominator and
no degenerate-range check exists, so no defined band results (in the
embedding the division has no finite value and the classifier returns
`none`). -/
theorem classifier_flat_range_divides_by_zero :
    calculate_normalized_height 0 0 0 = none ∧ calculate_height_color 0 0 0 = none := by
  constructor <;> norm_num [calculate_normalized_height, calculate_height_color, fdiv]

/-- C6: the claim that the view fitter clamps a degenerate projected
extent fails on the code: when all projected points coincide (zero
width and zero height) both per-axis scale divisions have zero
denominators and no clamp exists, so no finite transform results (in
the embedding `calculate_view_parameters` returns `none`). -/
theorem view_fitter_degenerate_extent_unclamped :
    calculate_view_parameters [⟨0, 0⟩] = none := by
  norm_num [calculate_view_parameters, scanBounds, fdiv, minOpt, List.foldl]

/-! ## Loop index-set membership -/

lemma mem_multiplesBelow {step bound x : ℕ} (hs : 1 ≤ step) :
    x ∈ multiplesBelow step bound ↔ step ∣ x ∧ x < bound := by
  simp only [multiplesBelow, List.mem_map, List.mem_range]
  constructor
  · rintro ⟨k, hk, rfl⟩
    have h1 : k + 1 ≤ (bound + step - 1) / step := hk
    have h2 : (k + 1) * step ≤ bound + step - 1 :=
      (Nat.le_div_iff_mul_le (by omega)).mp h1
    have h3 : (k + 1) * step = k * step + step := by ring
    exact ⟨Dvd.intro k (mul_comm step k), by omega⟩
  · rintro ⟨⟨k, rfl⟩, hlt⟩
    refine ⟨k, ?_, mul_comm k step⟩
    have h2 : (k + 1) * step ≤ bound + step - 1 := by
      have h3 : (k + 1) * step = step * k + step := by ring
      omega
    exact (Nat.le_div_iff_mul_le (by omega)).mpr h2
  
lemma mem_multiplesFrom {start step bound y : ℕ} (hs : 1 ≤ step) :
    y ∈ multiplesFrom start step bound ↔ (∃ k, y = start + k * step) ∧ y < bound := by
  simp only [multiplesFrom, List.mem_map, List.mem_range]
  constructor
  · rintro ⟨k, hk, rfl⟩
    have h1 : k + 1 ≤ (bound - start + step - 1) / step := hk
    have h2 : (k + 1) * step ≤ bound - start + step - 1 :=
      (Nat.le_div_iff_mul_le (by omega)).mp h1
    have h3 : (k + 1) * step = k * step + step := by ring
    exact ⟨⟨k, rfl⟩, by omega⟩
  · rintro ⟨⟨k, rfl⟩, hlt⟩
    refine ⟨k, ?_, rfl⟩
    have h2 : (k + 1) * step ≤ bound - start + step - 1 := by
      have h3 : (k + 1) * step = k * step + step := by ring
      omega
    exact (Nat.le_div_iff_mul_le (by omega)).mpr h2

lemma mem_squareCells {N length x y : ℕ} (hl : 1 ≤ length) :
    (x, y) ∈ squareCells N length ↔
      length ∣ x ∧ x < N - 1 ∧ length ∣ y ∧ y < N - 1 := by
  simp only [squareCells, List.mem_flatMap, List.mem_map, Prod.mk.injEq]
  constructor
  · rintro ⟨a, ha, b, hb, rfl, rfl⟩
    have h1 := (mem_multiplesBelow hl).mp ha
    have h2 := (mem_multiplesBelow hl).mp hb
    exact ⟨h1.1, h1.2, h2.1, h2.2⟩
  · rintro ⟨hdx, hx, hdy, hy⟩
    exact ⟨x, (mem_multiplesBelow hl).mpr ⟨hdx, hx⟩, y,
      (mem_multiplesBelow hl).mpr ⟨hdy, hy⟩, rfl, rfl⟩

lemma mem_diamondCells {N length half x y : ℕ} (hh : 1 ≤ half) (hl : 1 ≤ length) :
    (x, y) ∈ diamondCells N length half ↔
      half ∣ x ∧ x < N ∧ (∃ k, y = (x + half) % length + k * length) ∧ y < N := by
  simp only [diamondCells, List.mem_flatMap, List.mem_map, Prod.mk.injEq]
  constructor
  · rintro ⟨a, ha, b, hb, rfl, rfl⟩
    have h1 := (mem_multiplesBelow hh).mp ha
    have h2 := (mem_multiplesFrom hl).mp hb
    exact ⟨h1.1, h1.2, h2.1, h2.2⟩
  · rintro ⟨hdx, hx, hky, hy⟩
    exact ⟨x, (mem_multiplesBelow hh).mpr ⟨hdx, hx⟩, y,
      (mem_multiplesFrom hl).mpr ⟨hky, hy⟩, rfl, rfl⟩

/-! ## Claim theorems: diamond phase neighbor averaging -/

lemma diamondSum_eq_specNeighbors_sum (g : ℕ → ℕ → ℚ) (N half x y : ℕ) :
    diamondSum g N half x y =
      ((specNeighbors N half x y).map (fun p => g p.1 p.2)).sum := by
  unfold diamondSum specNeighbors
  split_ifs <;> simp <;> ring

lemma diamondCount_eq_specNeighbors_length (N half x y : ℕ) :
    diamondCount N half x y = (specNeighbors N half x y).length := by
  unfold diamondCount specNeighbors
  split_ifs <;> simp

/-- C1: a diamond-phase write at a visited cell `(x, y)` stores exactly
the sum of the in-grid neighbors at distance `half` in the four
cardinal directions, divided by the exact number of those neighbors,
plus one noise sample; that divisor is 4 precisely for interior cells
and 2 or 3 for boundary cells — never a stale 4. -/
theorem diamond_write_in_grid_average (u : ℕ → ℚ) (N length half : ℕ) (amp : ℚ) (s : St)
    (x y : ℕ) (hh : 1 ≤ half) (hl : length = 2 * half) (hdvd : length ∣ N - 1)
    (hN : 2 ≤ N) (hmem : (x, y) ∈ diamondCells N length half) :
    (diamondWrite u N half amp s (x, y)).grid x y =
      ((specNeighbors N half x y).map (fun p => s.grid p.1 p.2)).sum /
        ((specNeighbors N half x y).length : ℚ) + calculate_noise u s.idx amp ∧
      diamondCount N half x y = (specNeighbors N half x y).length ∧
      (half ≤ x ∧ x + half < N ∧ half ≤ y ∧ y + half < N →
        diamondCount N half x y = 4) ∧
      (¬(half ≤ x ∧ x + half < N ∧ half ≤ y ∧ y + half < N) →
        diamondCount N half x y = 2 ∨ diamondCount N half x y = 3) := by
  obtain ⟨hdx, hx, hky, hy⟩ := (mem_diamondCells hh (by omega)).mp hmem
  have hlen : length ≤ N - 1 := Nat.le_of_dvd (by omega) hdvd
  have h2h : 2 * half ≤ N := by omega
  refine ⟨?_, diamondCount_eq_specNeighbors_length N half x y, ?_, ?_⟩
  · simp only [diamondWrite, upd, diamondSum_eq_specNeighbors_sum,
      diamondCount_eq_specNeighbors_length]
    simp
  · intro hint
    unfold diamondCount
    split_ifs <;> omega
  · intro hbnd
    unfold diamondCount
    split_ifs <;> omega

theorem diamond_write_in_grid_average_witness :
    (diamondWrite (fun _ => 1) 5 2 1 ⟨fun a b => (a : ℚ) + b, 0⟩ (0, 2)).grid 0 2 =
      ((specNeighbors 5 2 0 2).map
          (fun p => ((fun a b => (a : ℚ) + b) : ℕ → ℕ → ℚ) p.1 p.2)).sum /
        ((specNeighbors 5 2 0 2).length : ℚ) +
        calculate_noise (fun _ => 1) (St.idx ⟨fun a b => (a : ℚ) + b, 0⟩) 1 ∧
      diamondCount 5 2 0 2 = (specNeighbors 5 2 0 2).length ∧
      (2 ≤ 0 ∧ 0 + 2 < 5 ∧ 2 ≤ 2 ∧ 2 + 2 < 5 → diamondCount 5 2 0 2 = 4) ∧
      (¬(2 ≤ 0 ∧ 0 + 2 < 5 ∧ 2 ≤ 2 ∧ 2 + 2 < 5) →
        diamondCount 5 2 0 2 = 2 ∨ diamondCount 5 2 0 2 = 3) :=
  diamond_write_in_grid_average (fun _ => 1) 5 4 2 1 ⟨fun a b => (a : ℚ) + b, 0⟩ 0 2
    (by norm_num) (by norm_num) (by norm_num) (by norm_num) (by decide)

/-! ## Write-target lemmas and corner preservation -/

lemma grid_squareWrite_ne (u : ℕ → ℚ) (l h : ℕ) (amp : ℚ) (s : St) (c : ℕ × ℕ)
    (a b : ℕ) (hne : ¬(a = c.1 + h ∧ b = c.2 + h)) :
    (squareWrite u l h amp s c).grid a b = s.grid a b := by
  simp only [squareWrite, upd]
  rw [if_neg hne]

lemma grid_diamondWrite_ne (u : ℕ → ℚ) (N h : ℕ) (amp : ℚ) (s : St) (c : ℕ × ℕ)
    (a b : ℕ) (hne : ¬(a = c.1 ∧ b = c.2)) :
    (diamondWrite u N h amp s c).grid a b = s.grid a b := by
  simp only [diamondWrite, upd]
  rw [if_neg hne]

lemma grid_squareFold_stable (u : ℕ → ℚ) (l h : ℕ) (amp : ℚ) (L : List (ℕ × ℕ))
    (a b : ℕ) (hL : ∀ c ∈ L, ¬(a = c.1 + h ∧ b = c.2 + h)) :
    ∀ s : St, (L.foldl (squareWrite u l h amp) s).grid a b = s.grid a b := by
  induction L with
  | nil => intro s; rfl
  | cons c L ih =>
    intro s
    rw [List.foldl_cons, ih (fun d hd => hL d (List.mem_cons_of_mem c hd))]
    exact grid_squareWrite_ne u l h amp s c a b (hL c (List.mem_cons_self c L))

lemma grid_diamondFold_stable (u : ℕ → ℚ) (N h : ℕ) (amp : ℚ) (L : List (ℕ × ℕ))
    (a b : ℕ) (hL : ∀ c ∈ L, ¬(a = c.1 ∧ b = c.2)) :
    ∀ s : St, (L.foldl (diamondWrite u N h amp) s).grid a b = s.grid a b := by
  induction L with
  | nil => intro s; rfl
  | cons c L ih =>
    intro s
    rw [List.foldl_cons, ih (fun d hd => hL d (List.mem_cons_of_mem c hd))]
    exact grid_diamondWrite_ne u N h amp s c a b (hL c (List.mem_cons_self c L))

/-- A square-phase write never targets a corner cell. -/
lemma squareCells_target_not_corner {N l h x y a b : ℕ} (hh : 1 ≤ h) (hl : l = 2 * h)
    (hdvd : l ∣ N - 1) (hN : 2 ≤ N) (hmem : (x, y) ∈ squareCells N l)
    (hcorn : isCorner N a b) : ¬(a = x + h ∧ b = y + h) := by
  obtain ⟨hdx, hx, hdy, hy⟩ := (mem_squareCells (by omega)).mp hmem
  have h1 : l ∣ N - 1 - x := Nat.dvd_sub' hdvd hdx
  have h2 : l ≤ N - 1 - x := Nat.le_of_dvd (by omega) h1
  obtain ⟨ha, hb⟩ := hcorn
  rintro ⟨rfl, rfl⟩
  omega

/-- A diamond-phase write never targets a corner cell. -/
lemma diamondCells_cell_not_corner {N l h x y : ℕ} (hh : 1 ≤ h) (hl : l = 2 * h)
    (hdvd : l ∣ N - 1) (hN : 2 ≤ N) (hmem : (x, y) ∈ diamondCells N l h) :
    ¬ isCorner N x y := by
  obtain ⟨hdx, hx, ⟨k, hky⟩, hy⟩ := (mem_diamondCells hh (by omega)).mp hmem
  rintro ⟨hax, hby⟩
  have hxl : l ∣ x := by
    rcases hax with rfl | rfl
    · exact dvd_zero l
    · exact hdvd
  obtain ⟨m, rfl⟩ := hxl
  have e0 : (l * m + h) % l = h := by
    rw [Nat.mul_add_mod]
    exact Nat.mod_eq_of_lt (by omega)
  have e1 : y % l = h := by
    rw [hky, Nat.add_mul_mod_self_right, e0]
    exact Nat.mod_eq_of_lt (by omega)
  rcases hby with h0 | hN1
  · rw [h0, Nat.zero_mod] at e1
    omega
  · obtain ⟨t, ht⟩ := hdvd
    rw [hN1, ht, Nat.mul_mod_right] at e1
    omega

/-- One full iteration (square phase then diamond phase) leaves every
corner cell unchanged. -/
lemma corner_grid_iter (u : ℕ → ℚ) (N l h : ℕ) (amp : ℚ) (a b : ℕ) (hh : 1 ≤ h)
    (hl : l = 2 * h) (hdvd : l ∣ N - 1) (hN : 2 ≤ N) (hcorn : isCorner N a b) (s : St) :
    (diamondStep u N l h amp (squareStep u N l h amp s)).grid a b = s.grid a b := by
  unfold diamondStep squareStep
  rw [grid_diamondFold_stable u N h amp _ a b ?_, grid_squareFold_stable u l h amp _ a b ?_]
  · intro c hc
    exact squareCells_target_not_corner hh hl hdvd hN hc hcorn
  · intro c hc
    rintro ⟨rfl, rfl⟩
    exact diamondCells_cell_not_corner hh hl hdvd hN hc hcorn

/-- The whole generation loop leaves every corner cell unchanged. -/
lemma corner_grid_genFrom (u : ℕ → ℚ) (N : ℕ) (r : ℚ) (a b : ℕ) (hN : 2 ≤ N)
    (hcorn : isCorner N a b) :
    ∀ j : ℕ, ∀ (amp : ℚ) (s : St), 2 ^ j ∣ N - 1 →
      (genFrom u N r (2 ^ j) amp s).grid a b = s.grid a b := by
  intro j
  induction j with
  | zero =>
    intro amp s _
    rw [pow_zero, genFrom]
    norm_num
  | succ n ih =>
    intro amp s hdvd
    rw [genFrom]
    have h1 : (1:ℕ) ≤ 2 ^ n := Nat.one_le_two_pow
    have h2 : (2:ℕ) ^ (n + 1) = 2 ^ n * 2 := by rw [pow_succ]
    have h3 : 1 < 2 ^ (n + 1) := by omega
    have h4 : 2 ^ (n + 1) / 2 = 2 ^ n := by omega
    simp only [h3, if_true, h4]
    rw [ih _ _ (dvd_trans (pow_dvd_pow 2 (Nat.le_succ n)) hdvd)]
    exact corner_grid_iter u N (2 ^ (n + 1)) (2 ^ n) amp a b h1 (by omega) hdvd hN hcorn s

/-- `reset_canvas_corners` writes 0 at every corner cell. -/
lemma reset_corner_zero (N : ℕ) (g : ℕ → ℕ → ℚ) (a b : ℕ) (hN : 2 ≤ N)
    (hcorn : isCorner N a b) : reset_canvas_corners N g a b = 0 := by
  obtain ⟨ha, hb⟩ := hcorn
  simp only [reset_canvas_corners, upd]
  rcases ha with rfl | rfl <;> rcases hb with rfl | rfl <;>
    split_ifs <;> first | rfl | omega

/-! ## Claim theorems: corners after regeneration -/

/-- C2: after a corner reset followed by a full generation pass on a
grid of size `N = 2^k + 1`, every corner cell holds exactly 0; and no
square-phase or diamond-phase write of any loop iteration (any `length`
dividing `N - 1` with `half = length / 2 ≥ 1`) targets a corner cell. -/
theorem corners_zero_after_regeneration (N k : ℕ) (hN : N = 2 ^ k + 1) (hk : 1 ≤ k)
    (u : ℕ → ℚ) (r A : ℚ) (g : ℕ → ℕ → ℚ) (n : ℕ) (a b : ℕ) (hcorn : isCorner N a b)
    (l h : ℕ) (hl : l = 2 * h) (hh : 1 ≤ h) (hdvd : l ∣ N - 1)
    (c d : ℕ × ℕ) (hc : c ∈ squareCells N l) (hd : d ∈ diamondCells N l h) :
    (generate_terrain u N r A ⟨reset_canvas_corners N g, n⟩).grid a b = 0 ∧
      ¬(a = c.1 + h ∧ b = c.2 + h) ∧ ¬(a = d.1 ∧ b = d.2) := by
  have hpow : (1:ℕ) ≤ 2 ^ k := Nat.one_le_two_pow
  have hN2 : 2 ≤ N := by omega
  have hN1 : N - 1 = 2 ^ k := by omega
  refine ⟨?_, ?_, ?_⟩
  · unfold generate_terrain
    rw [hN1, corner_grid_genFrom u N r a b hN2 hcorn k A _ (hN1 ▸ dvd_refl _)]
    exact reset_corner_zero N g a b hN2 hcorn
  · exact squareCells_target_not_corner hh hl hdvd hN2 hc hcorn
  · rintro ⟨rfl, rfl⟩
    exact diamondCells_cell_not_corner hh hl hdvd hN2 hd hcorn

theorem corners_zero_after_regeneration_witness :
    (generate_terrain (fun _ => 1) 3 (1/2) 50
        ⟨reset_canvas_corners 3 (fun _ _ => 7), 0⟩).grid 0 2 = 0 ∧
      ¬((0:ℕ) = ((0,0) : ℕ × ℕ).1 + 1 ∧ (2:ℕ) = ((0,0) : ℕ × ℕ).2 + 1) ∧
      ¬((0:ℕ) = ((0,1) : ℕ × ℕ).1 ∧ (2:ℕ) = ((0,1) : ℕ × ℕ).2) :=
  corners_zero_after_regeneration 3 1 (by norm_num) (by norm_num) (fun _ => 1) (1/2) 50
    (fun _ _ => 7) 0 0 2 ⟨Or.inl rfl, Or.inr rfl⟩ 2 1 (by norm_num) (by norm_num)
    (by norm_num) (0, 0) (0, 1) (by decide) (by decide)

/-! ## Min/max scan lemmas -/

lemma mem_allCells {N x y : ℕ} : (x, y) ∈ allCells N ↔ x < N ∧ y < N := by
  simp only [allCells, List.mem_flatMap, List.mem_map, List.mem_range, Prod.mk.injEq]
  constructor
  · rintro ⟨a, ha, b, hb, rfl, rfl⟩
    exact ⟨ha, hb⟩
  · rintro ⟨hx, hy⟩
    exact ⟨x, hx, y, hy, rfl, rfl⟩

lemma foldl_minmax_init (g : ℕ → ℕ → ℚ) (L : List (ℕ × ℕ)) :
    ∀ mm : ℚ × ℚ,
      (L.foldl (fun mm c => (min mm.1 (g c.1 c.2), max mm.2 (g c.1 c.2))) mm).1 ≤ mm.1 ∧
      mm.2 ≤ (L.foldl (fun mm c => (min mm.1 (g c.1 c.2), max mm.2 (g c.1 c.2))) mm).2 := by
  induction L with
  | nil => intro mm; exact ⟨le_refl _, le_refl _⟩
  | cons c L ih =>
    intro mm
    rw [List.foldl_cons]
    refine ⟨le_trans (ih _).1 ?_, le_trans ?_ (ih _).2⟩
    · exact min_le_left _ _
    · exact le_max_left _ _

lemma foldl_minmax_mem (g : ℕ → ℕ → ℚ) (L : List (ℕ × ℕ)) :
    ∀ (mm : ℚ × ℚ) (c : ℕ × ℕ), c ∈ L →
      (L.foldl (fun mm c => (min mm.1 (g c.1 c.2), max mm.2 (g c.1 c.2))) mm).1 ≤ g c.1 c.2 ∧
      g c.1 c.2 ≤
        (L.foldl (fun mm c => (min mm.1 (g c.1 c.2), max mm.2 (g c.1 c.2))) mm).2 := by
  induction L with
  | nil => intro _ c hc; exact absurd hc (List.not_mem_nil c)
  | cons d L ih =>
    intro mm c hc
    rw [List.foldl_cons]
    rcases List.mem_cons.mp hc with rfl | hmem
    · refine ⟨le_trans (foldl_minmax_init g L _).1 ?_, le_trans ?_ (foldl_minmax_init g L _).2⟩
      · exact min_le_right _ _
      · exact le_max_right _ _
    · exact ih _ c hmem

/-! ## Claim theorems: elevation statistics -/

/-- C10: after a regeneration (corner reset, full generation pass,
min/max recomputation) on a grid of size `N = 2^k + 1`, the computed
statistics bracket every cell, and `min ≤ 0 ≤ max` because the corner
cells hold 0 and are included in the scan. -/
theorem minmax_bracket_after_regeneration (N k : ℕ) (hN : N = 2 ^ k + 1) (hk : 1 ≤ k)
    (u : ℕ → ℚ) (r A : ℚ) (g : ℕ → ℕ → ℚ) (n : ℕ) (x y : ℕ) (hx : x < N) (hy : y < N) :
    (calculate_min_max_height N
        (generate_terrain u N r A ⟨reset_canvas_corners N g, n⟩).grid).1 ≤
      (generate_terrain u N r A ⟨reset_canvas_corners N g, n⟩).grid x y ∧
    (generate_terrain u N r A ⟨reset_canvas_corners N g, n⟩).grid x y ≤
      (calculate_min_max_height N
        (generate_terrain u N r A ⟨reset_canvas_corners N g, n⟩).grid).2 ∧
    (calculate_min_max_height N
        (generate_terrain u N r A ⟨reset_canvas_corners N g, n⟩).grid).1 ≤ 0 ∧
    0 ≤ (calculate_min_max_height N
        (generate_terrain u N r A ⟨reset_canvas_corners N g, n⟩).grid).2 := by
  have hpow : (1:ℕ) ≤ 2 ^ k := Nat.one_le_two_pow
  have hN2 : 2 ≤ N := by omega
  have hN1 : N - 1 = 2 ^ k := by omega
  set G := (generate_terrain u N r A ⟨reset_canvas_corners N g, n⟩).grid with hG
  have h00 : G 0 0 = 0 := by
    rw [hG]
    unfold generate_terrain
    rw [hN1, corner_grid_genFrom u N r 0 0 hN2 ⟨Or.inl rfl, Or.inl rfl⟩ k A _
      (hN1 ▸ dvd_refl _)]
    exact reset_corner_zero N g 0 0 hN2 ⟨Or.inl rfl, Or.inl rfl⟩
  have hbr := foldl_minmax_mem G (allCells N) (G 0 0, G 0 0) (x, y)
    (mem_allCells.mpr ⟨hx, hy⟩)
  have hin := foldl_minmax_init G (allCells N) (G 0 0, G 0 0)
  refine ⟨hbr.1, hbr.2, ?_, ?_⟩
  · calc (calculate_min_max_height N G).1 ≤ G 0 0 := hin.1
      _ = 0 := h00
  · calc (0:ℚ) = G 0 0 := h00.symm
      _ ≤ (calculate_min_max_height N G).2 := hin.2

theorem minmax_bracket_after_regeneration_witness :
    (calculate_min_max_height 3
        (generate_terrain (fun _ => 1) 3 (1/2) 50
          ⟨reset_canvas_corners 3 (fun _ _ => 7), 0⟩).grid).1 ≤
      (generate_terrain (fun _ => 1) 3 (1/2) 50
          ⟨reset_canvas_corners 3 (fun _ _ => 7), 0⟩).grid 1 2 ∧
    (generate_terrain (fun _ => 1) 3 (1/2) 50
          ⟨reset_canvas_corners 3 (fun _ _ => 7), 0⟩).grid 1 2 ≤
      (calculate_min_max_height 3
        (generate_terrain (fun _ => 1) 3 (1/2) 50
          ⟨reset_canvas_corners 3 (fun _ _ => 7), 0⟩).grid).2 ∧
    (calculate_min_max_height 3
        (generate_terrain (fun _ => 1) 3 (1/2) 50
          ⟨reset_canvas_corners 3 (fun _ _ => 7), 0⟩).grid).1 ≤ 0 ∧
    0 ≤ (calculate_min_max_height 3
        (generate_terrain (fun _ => 1) 3 (1/2) 50
          ⟨reset_canvas_corners 3 (fun _ _ => 7), 0⟩).grid).2 :=
  minmax_bracket_after_regeneration 3 1 (by norm_num) (by norm_num) (fun _ => 1) (1/2) 50
    (fun _ _ => 7) 0 1 2 (by norm_num) (by norm_num)

/-! ## Arithmetic helpers for the amplitude bound -/

lemma abs_noise_le (u : ℕ → ℚ) (i : ℕ) (amp : ℚ) (hu : |u i| ≤ 1) (hamp : 0 ≤ amp) :
    |calculate_noise u i amp| ≤ amp := by
  unfold calculate_noise
  rw [abs_mul]
  calc |u i| * |amp| ≤ 1 * |amp| := mul_le_mul_of_nonneg_right hu (abs_nonneg _)
    _ = amp := by rw [one_mul, abs_of_nonneg hamp]

lemma abs_avg4_le (a b c d B : ℚ) (ha : |a| ≤ B) (hb : |b| ≤ B) (hc : |c| ≤ B)
    (hd : |d| ≤ B) : |(a + b + c + d) / 4| ≤ B := by
  have h1 : |a + b + c + d| ≤ 4 * B := by
    calc |a + b + c + d| ≤ |a + b + c| + |d| := abs_add _ _
      _ ≤ |a + b| + |c| + |d| := by linarith [abs_add (a + b) c]
      _ ≤ |a| + |b| + |c| + |d| := by linarith [abs_add a b]
      _ ≤ 4 * B := by linarith
  rw [abs_div, show |(4:ℚ)| = 4 by norm_num, div_le_iff₀ (by norm_num : (0:ℚ) < 4)]
  linarith

lemma abs_add4_div_le (t1 t2 t3 t4 n1 n2 n3 n4 C : ℚ) (hC : 0 ≤ C)
    (h1 : |t1| ≤ n1 * C) (h2 : |t2| ≤ n2 * C) (h3 : |t3| ≤ n3 * C) (h4 : |t4| ≤ n4 * C)
    (hn1 : n1 = 0 ∨ n1 = 1) (hn2 : n2 = 0 ∨ n2 = 1) (hn3 : n3 = 0 ∨ n3 = 1)
    (hn4 : n4 = 0 ∨ n4 = 1) :
    |(t1 + t2 + t3 + t4) / (n1 + n2 + n3 + n4)| ≤ C := by
  have hsum : |t1 + t2 + t3 + t4| ≤ (n1 + n2 + n3 + n4) * C := by
    calc |t1 + t2 + t3 + t4| ≤ |t1 + t2 + t3| + |t4| := abs_add _ _
      _ ≤ |t1 + t2| + |t3| + |t4| := by linarith [abs_add (t1 + t2) t3]
      _ ≤ |t1| + |t2| + |t3| + |t4| := by linarith [abs_add t1 t2]
      _ ≤ n1 * C + n2 * C + n3 * C + n4 * C := by linarith
      _ = (n1 + n2 + n3 + n4) * C := by ring
  by_cases hz : n1 + n2 + n3 + n4 = 0
  · rw [hz, div_zero, abs_zero]
    exact hC
  · have hpos : 0 < n1 + n2 + n3 + n4 := by
      rcases hn1 with rfl | rfl <;> rcases hn2 with rfl | rfl <;>
        rcases hn3 with rfl | rfl <;> rcases hn4 with rfl | rfl <;> norm_num at hz ⊢
    rw [abs_div, abs_of_pos hpos, div_le_iff₀ hpos]
    calc |t1 + t2 + t3 + t4| ≤ (n1 + n2 + n3 + n4) * C := hsum
      _ = C * (n1 + n2 + n3 + n4) := by ring

/-- The diamond average `sum / count` is bounded by any common bound
on the guarded neighbor reads. -/
lemma abs_diamond_avg_le (g : ℕ → ℕ → ℚ) (N h x y : ℕ) (C : ℚ) (hC : 0 ≤ C)
    (h1 : h ≤ x → |g (x - h) y| ≤ C) (h2 : x + h < N → |g (x + h) y| ≤ C)
    (h3 : h ≤ y → |g x (y - h)| ≤ C) (h4 : y + h < N → |g x (y + h)| ≤ C) :
    |diamondSum g N h x y / (diamondCount N h x y : ℚ)| ≤ C := by
  have hcast : ((diamondCount N h x y : ℕ) : ℚ) =
      (if h ≤ x then (1:ℚ) else 0) + (if x + h < N then (1:ℚ) else 0) +
        (if h ≤ y then (1:ℚ) else 0) + (if y + h < N then (1:ℚ) else 0) := by
    unfold diamondCount
    push_cast
    rfl
  rw [hcast]
  unfold diamondSum
  apply abs_add4_div_le _ _ _ _ _ _ _ _ C hC
  · split_ifs with hg
    · rw [one_mul]; exact h1 hg
    · rw [zero_mul, abs_zero]
  · split_ifs with hg
    · rw [one_mul]; exact h2 hg
    · rw [zero_mul, abs_zero]
  · split_ifs with hg
    · rw [one_mul]; exact h3 hg
    · rw [zero_mul, abs_zero]
  · split_ifs with hg
    · rw [one_mul]; exact h4 hg
    · rw [zero_mul, abs_zero]
  · split_ifs <;> simp
  · split_ifs <;> simp
  · split_ifs <;> simp
  · split_ifs <;> simp

/-! ## Lattice coordinates of the phase index sets -/

/-- A visited diamond cell has coordinates `(h·γ, h·δ)` with `γ + δ`
odd, inside the grid. -/
lemma diamondCells_coords {N l h x y : ℕ} (hh : 1 ≤ h) (hl : l = 2 * h)
    (hmem : (x, y) ∈ diamondCells N l h) :
    x < N ∧ y < N ∧ ∃ γ δ, x = h * γ ∧ y = h * δ ∧ (γ + δ) % 2 = 1 := by
  obtain ⟨hdx, hx, ⟨k, hky⟩, hy⟩ := (mem_diamondCells hh (by omega)).mp hmem
  obtain ⟨γ, rfl⟩ := hdx
  refine ⟨hx, hy, γ, (γ + 1) % 2 + 2 * k, rfl, ?_, by omega⟩
  have hmod : (h * γ + h) % l = h * ((γ + 1) % 2) := by
    rw [show h * γ + h = h * (γ + 1) by ring, hl, mul_comm 2 h, Nat.mul_mod_mul_left]
  rw [hky, hmod, hl]
  ring

/-- Conversely, every in-grid cell `(h·γ, h·δ)` with `γ + δ` odd is
visited by the diamond loops. -/
lemma diamondCells_coverage {N l h γ δ : ℕ} (hh : 1 ≤ h) (hl : l = 2 * h)
    (hpar : (γ + δ) % 2 = 1) (hx : h * γ < N) (hy : h * δ < N) :
    (h * γ, h * δ) ∈ diamondCells N l h := by
  refine (mem_diamondCells hh (by omega)).mpr ⟨Dvd.intro γ rfl, hx, ?_, hy⟩
  have hmod : (h * γ + h) % l = h * ((γ + 1) % 2) := by
    rw [show h * γ + h = h * (γ + 1) by ring, hl, mul_comm 2 h, Nat.mul_mod_mul_left]
  refine ⟨δ / 2, ?_⟩
  rw [hmod, hl]
  have hδ : δ = 2 * (δ / 2) + (γ + 1) % 2 := by omega
  conv_lhs => rw [hδ]
  ring

/-- Every in-grid cell `(h·γ, h·δ)` with `γ, δ` both odd is the write
target of a square-loop cell. -/
lemma squareCells_coverage {N l h γ δ : ℕ} (hh : 1 ≤ h) (hl : l = 2 * h)
    (hdvd : l ∣ N - 1) (hN : 2 ≤ N) (hγ : γ % 2 = 1) (hδ : δ % 2 = 1)
    (hx : h * γ < N) (hy : h * δ < N) :
    (h * (γ - 1), h * (δ - 1)) ∈ squareCells N l ∧
      h * (γ - 1) + h = h * γ ∧ h * (δ - 1) + h = h * δ := by
  have hγ1 : 1 ≤ γ := by omega
  have hδ1 : 1 ≤ δ := by omega
  have ex : h * (γ - 1) + h = h * γ := by
    have : γ - 1 + 1 = γ := by omega
    calc h * (γ - 1) + h = h * (γ - 1 + 1) := by ring
      _ = h * γ := by rw [this]
  have ey : h * (δ - 1) + h = h * δ := by
    have : δ - 1 + 1 = δ := by omega
    calc h * (δ - 1) + h = h * (δ - 1 + 1) := by ring
      _ = h * δ := by rw [this]
  have dx : l ∣ h * (γ - 1) := by
    refine ⟨(γ - 1) / 2, ?_⟩
    rw [hl]
    have h2 : γ - 1 = 2 * ((γ - 1) / 2) := by omega
    calc h * (γ - 1) = h * (2 * ((γ - 1) / 2)) := by rw [← h2]
      _ = 2 * h * ((γ - 1) / 2) := by ring
  have dy : l ∣ h * (δ - 1) := by
    refine ⟨(δ - 1) / 2, ?_⟩
    rw [hl]
    have h2 : δ - 1 = 2 * ((δ - 1) / 2) := by omega
    calc h * (δ - 1) = h * (2 * ((δ - 1) / 2)) := by rw [← h2]
      _ = 2 * h * ((δ - 1) / 2) := by ring
  exact ⟨(mem_squareCells (by omega)).mpr ⟨dx, by omega, dy, by omega⟩, ex, ey⟩

/-- Square-phase fold invariant: coarse `l`-lattice cells are never
written; every cell is untouched or bounded by `B + amp`; the write
target of every processed loop cell ends up bounded by `B + amp`. -/
lemma squareFold_props (u : ℕ → ℚ) (N l h : ℕ) (amp B : ℚ) (g0 : ℕ → ℕ → ℚ)
    (hl : l = 2 * h) (hh : 1 ≤ h) (hdvd : l ∣ N - 1) (hN : 2 ≤ N)
    (hu : ∀ i, |u i| ≤ 1) (hamp : 0 ≤ amp)
    (hB : ∀ a b, a < N → b < N → l ∣ a → l ∣ b → |g0 a b| ≤ B) :
    ∀ L : List (ℕ × ℕ), (∀ c ∈ L, c ∈ squareCells N l) →
      ∀ s : St, (∀ a b, l ∣ a → l ∣ b → s.grid a b = g0 a b) →
      (∀ a b, l ∣ a → l ∣ b →
        (L.foldl (squareWrite u l h amp) s).grid a b = g0 a b) ∧
      (∀ a b, (L.foldl (squareWrite u l h amp) s).grid a b = s.grid a b ∨
        |(L.foldl (squareWrite u l h amp) s).grid a b| ≤ B + amp) ∧
      (∀ c ∈ L,
        |(L.foldl (squareWrite u l h amp) s).grid (c.1 + h) (c.2 + h)| ≤ B + amp) := by
  intro L
  induction L with
  | nil =>
    intro _ s hs
    exact ⟨fun a b hda hdb => hs a b hda hdb, fun a b => Or.inl rfl,
      fun c hc => absurd hc (List.not_mem_nil c)⟩
  | cons c L ih =>
    intro hL s hs
    have hc := hL c (List.mem_cons_self c L)
    obtain ⟨hdx, hx, hdy, hy⟩ := (mem_squareCells (by omega : 1 ≤ l)).mp hc
    have hx2 : c.1 + l ≤ N - 1 := by
      have h1 : l ∣ N - 1 - c.1 := Nat.dvd_sub' hdvd hdx
      have h2 : l ≤ N - 1 - c.1 := Nat.le_of_dvd (by omega) h1
      omega
    have hy2 : c.2 + l ≤ N - 1 := by
      have h1 : l ∣ N - 1 - c.2 := Nat.dvd_sub' hdvd hdy
      have h2 : l ≤ N - 1 - c.2 := Nat.le_of_dvd (by omega) h1
      omega
    have hdx' : l ∣ c.1 + l := dvd_add hdx dvd_rfl
    have hdy' : l ∣ c.2 + l := dvd_add hdy dvd_rfl
    have hr1 : |s.grid c.1 c.2| ≤ B := by
      rw [hs _ _ hdx hdy]
      exact hB _ _ (by omega) (by omega) hdx hdy
    have hr2 : |s.grid (c.1 + l) c.2| ≤ B := by
      rw [hs _ _ hdx' hdy]
      exact hB _ _ (by omega) (by omega) hdx' hdy
    have hr3 : |s.grid c.1 (c.2 + l)| ≤ B := by
      rw [hs _ _ hdx hdy']
      exact hB _ _ (by omega) (by omega) hdx hdy'
    have hr4 : |s.grid (c.1 + l) (c.2 + l)| ≤ B := by
      rw [hs _ _ hdx' hdy']
      exact hB _ _ (by omega) (by omega) hdx' hdy'
    have hval : (squareWrite u l h amp s c).grid (c.1 + h) (c.2 + h) =
        (s.grid c.1 c.2 + s.grid (c.1 + l) c.2 + s.grid c.1 (c.2 + l) +
          s.grid (c.1 + l) (c.2 + l)) / 4 + calculate_noise u s.idx amp := by
      simp [squareWrite, upd]
    have hw : |(squareWrite u l h amp s c).grid (c.1 + h) (c.2 + h)| ≤ B + amp := by
      rw [hval]
      calc |(s.grid c.1 c.2 + s.grid (c.1 + l) c.2 + s.grid c.1 (c.2 + l) +
              s.grid (c.1 + l) (c.2 + l)) / 4 + calculate_noise u s.idx amp| ≤
          |(s.grid c.1 c.2 + s.grid (c.1 + l) c.2 + s.grid c.1 (c.2 + l) +
              s.grid (c.1 + l) (c.2 + l)) / 4| + |calculate_noise u s.idx amp| :=
            abs_add _ _
        _ ≤ B + amp := add_le_add (abs_avg4_le _ _ _ _ _ hr1 hr2 hr3 hr4)
            (abs_noise_le u s.idx amp (hu _) hamp)
    have hs2 : ∀ a b, l ∣ a → l ∣ b →
        (squareWrite u l h amp s c).grid a b = g0 a b := by
      intro a b hda hdb
      rw [grid_squareWrite_ne u l h amp s c a b ?_]
      · exact hs a b hda hdb
      · rintro ⟨rfl, rfl⟩
        have hdh : l ∣ h := by
          have h5 := Nat.dvd_sub' hda hdx
          simpa using h5
        have h6 := Nat.le_of_dvd (by omega) hdh
        omega
    obtain ⟨ih1, ih2, ih3⟩ :=
      ih (fun d hd => hL d (List.mem_cons_of_mem c hd)) (squareWrite u l h amp s c) hs2
    rw [List.foldl_cons]
    refine ⟨ih1, ?_, ?_⟩
    · intro a b
      rcases ih2 a b with heq | hbd
      · by_cases hab : a = c.1 + h ∧ b = c.2 + h
        · obtain ⟨rfl, rfl⟩ := hab
          rw [heq]
          exact Or.inr hw
        · rw [heq, grid_squareWrite_ne u l h amp s c a b hab]
          exact Or.inl rfl
      · exact Or.inr hbd
    · intro d hd
      rcases List.mem_cons.mp hd with rfl | hmem
      · rcases ih2 (d.1 + h) (d.2 + h) with heq | hbd
        · rw [heq]
          exact hw
        · exact hbd
      · exact ih3 d hmem

/-- Summary of the square phase: the coarse lattice is untouched and
every in-grid odd-odd cell of the `h`-lattice ends up bounded. -/
lemma squareStep_props (u : ℕ → ℚ) (N l h : ℕ) (amp B : ℚ)
    (hl : l = 2 * h) (hh : 1 ≤ h) (hdvd : l ∣ N - 1) (hN : 2 ≤ N)
    (hu : ∀ i, |u i| ≤ 1) (hamp : 0 ≤ amp) (s : St)
    (hB : ∀ a b, a < N → b < N → l ∣ a → l ∣ b → |s.grid a b| ≤ B) :
    (∀ a b, l ∣ a → l ∣ b → (squareStep u N l h amp s).grid a b = s.grid a b) ∧
    (∀ γ δ, γ % 2 = 1 → δ % 2 = 1 → h * γ < N → h * δ < N →
      |(squareStep u N l h amp s).grid (h * γ) (h * δ)| ≤ B + amp) := by
  obtain ⟨f1, f2, f3⟩ := squareFold_props u N l h amp B s.grid hl hh hdvd hN hu hamp hB
    (squareCells N l) (fun c hc => hc) s (fun a b _ _ => rfl)
  refine ⟨fun a b hda hdb => f1 a b hda hdb, ?_⟩
  intro γ δ hγ hδ hx hy
  obtain ⟨hmem, ex, ey⟩ := squareCells_coverage hh hl hdvd hN hγ hδ hx hy
  have h3 := f3 (h * (γ - 1), h * (δ - 1)) hmem
  simp only at h3
  rw [ex, ey] at h3
  exact h3

/-- Diamond-phase fold invariant: even-sum `h`-lattice cells are never
written; every cell is untouched or bounded by `C + amp`; every
processed loop cell ends up bounded by `C + amp`. -/
lemma diamondFold_props (u : ℕ → ℚ) (N l h : ℕ) (amp C : ℚ) (s1 : St)
    (hl : l = 2 * h) (hh : 1 ≤ h) (hu : ∀ i, |u i| ≤ 1) (hamp : 0 ≤ amp) (hC : 0 ≤ C)
    (hread : ∀ a b, a < N → b < N →
      (∃ α β, a = h * α ∧ b = h * β ∧ (α + β) % 2 = 0) → |s1.grid a b| ≤ C) :
    ∀ L : List (ℕ × ℕ), (∀ c ∈ L, c ∈ diamondCells N l h) →
      ∀ s : St, (∀ a b, (∃ α β, a = h * α ∧ b = h * β ∧ (α + β) % 2 = 0) →
        s.grid a b = s1.grid a b) →
      (∀ a b, (∃ α β, a = h * α ∧ b = h * β ∧ (α + β) % 2 = 0) →
        (L.foldl (diamondWrite u N h amp) s).grid a b = s1.grid a b) ∧
      (∀ a b, (L.foldl (diamondWrite u N h amp) s).grid a b = s.grid a b ∨
        |(L.foldl (diamondWrite u N h amp) s).grid a b| ≤ C + amp) ∧
      (∀ c ∈ L, |(L.foldl (diamondWrite u N h amp) s).grid c.1 c.2| ≤ C + amp) := by
  intro L
  induction L with
  | nil =>
    intro _ s hs
    exact ⟨fun a b hev => hs a b hev, fun a b => Or.inl rfl,
      fun c hc => absurd hc (List.not_mem_nil c)⟩
  | cons c L ih =>
    intro hL s hs
    have hc := hL c (List.mem_cons_self c L)
    obtain ⟨hxN, hyN, γ, δ, hcx, hcy, hpar⟩ := diamondCells_coords hh hl hc
    have hval : (diamondWrite u N h amp s c).grid c.1 c.2 =
        diamondSum s.grid N h c.1 c.2 / (diamondCount N h c.1 c.2 : ℚ) +
          calculate_noise u s.idx amp := by
      simp [diamondWrite, upd]
    have hw : |(diamondWrite u N h amp s c).grid c.1 c.2| ≤ C + amp := by
      rw [hval]
      have havg : |diamondSum s.grid N h c.1 c.2 / (diamondCount N h c.1 c.2 : ℚ)| ≤ C := by
        apply abs_diamond_avg_le s.grid N h c.1 c.2 C hC
        · intro hg
          have hγ1 : 1 ≤ γ := by
            rcases Nat.eq_zero_or_pos γ with rfl | hp
            · rw [hcx] at hg
              simp at hg
              omega
            · exact hp
          have e2 : h * (γ - 1) + h = h * γ := by
            have e3 : γ - 1 + 1 = γ := by omega
            calc h * (γ - 1) + h = h * (γ - 1 + 1) := by ring
              _ = h * γ := by rw [e3]
          have e1 : c.1 - h = h * (γ - 1) := by omega
          rw [e1, hcy]
          rw [hs _ _ ⟨γ - 1, δ, rfl, rfl, by omega⟩]
          exact hread _ _ (by omega) (by omega) ⟨γ - 1, δ, rfl, rfl, by omega⟩
        · intro hg
          have e1 : c.1 + h = h * (γ + 1) := by rw [hcx]; ring
          rw [e1, hcy]
          rw [hs _ _ ⟨γ + 1, δ, rfl, rfl, by omega⟩]
          exact hread _ _ (by omega) (by omega) ⟨γ + 1, δ, rfl, rfl, by omega⟩
        · intro hg
          have hδ1 : 1 ≤ δ := by
            rcases Nat.eq_zero_or_pos δ with rfl | hp
            · rw [hcy] at hg
              simp at hg
              omega
            · exact hp
          have e2 : h * (δ - 1) + h = h * δ := by
            have e3 : δ - 1 + 1 = δ := by omega
            calc h * (δ - 1) + h = h * (δ - 1 + 1) := by ring
              _ = h * δ := by rw [e3]
          have e1 : c.2 - h = h * (δ - 1) := by omega
          rw [e1, hcx]
          rw [hs _ _ ⟨γ, δ - 1, rfl, rfl, by omega⟩]
          exact hread _ _ (by omega) (by omega) ⟨γ, δ - 1, rfl, rfl, by omega⟩
        · intro hg
          have e1 : c.2 + h = h * (δ + 1) := by rw [hcy]; ring
          rw [e1, hcx]
          rw [hs _ _ ⟨γ, δ + 1, rfl, rfl, by omega⟩]
          exact hread _ _ (by omega) (by omega) ⟨γ, δ + 1, rfl, rfl, by omega⟩
      calc |diamondSum s.grid N h c.1 c.2 / (diamondCount N h c.1 c.2 : ℚ) +
              calculate_noise u s.idx amp| ≤
          |diamondSum s.grid N h c.1 c.2 / (diamondCount N h c.1 c.2 : ℚ)| +
            |calculate_noise u s.idx amp| := abs_add _ _
        _ ≤ C + amp := add_le_add havg (abs_noise_le u s.idx amp (hu _) hamp)
    have hs2 : ∀ a b, (∃ α β, a = h * α ∧ b = h * β ∧ (α + β) % 2 = 0) →
        (diamondWrite u N h amp s c).grid a b = s1.grid a b := by
      rintro a b ⟨α, β, rfl, rfl, hev⟩
      rw [grid_diamondWrite_ne u N h amp s c _ _ ?_]
      · exact hs _ _ ⟨α, β, rfl, rfl, hev⟩
      · rintro ⟨h1, h2⟩
        rw [hcx] at h1
        rw [hcy] at h2
        have hαγ : α = γ := Nat.eq_of_mul_eq_mul_left (by omega) h1
        have hβδ : β = δ := Nat.eq_of_mul_eq_mul_left (by omega) h2
        omega
    obtain ⟨ih1, ih2, ih3⟩ :=
      ih (fun d hd => hL d (List.mem_cons_of_mem c hd)) (diamondWrite u N h amp s c) hs2
    rw [List.foldl_cons]
    refine ⟨ih1, ?_, ?_⟩
    · intro a b
      rcases ih2 a b with heq | hbd
      · by_cases hab : a = c.1 ∧ b = c.2
        · obtain ⟨rfl, rfl⟩ := hab
          rw [heq]
          exact Or.inr hw
        · rw [heq, grid_diamondWrite_ne u N h amp s c a b hab]
          exact Or.inl rfl
      · exact Or.inr hbd
    · intro d hd
      rcases List.mem_cons.mp hd with rfl | hmem
      · rcases ih2 d.1 d.2 with heq | hbd
        · rw [heq]
          exact hw
        · exact hbd
      · exact ih3 d hmem

/-- One full iteration refines the lattice bound: if the coarse
`l`-lattice is bounded by `B`, the `h`-lattice is bounded by
`B + 2·amp` afterwards. -/
lemma iter_latBounded (u : ℕ → ℚ) (N l h : ℕ) (amp B : ℚ)
    (hl : l = 2 * h) (hh : 1 ≤ h) (hdvd : l ∣ N - 1) (hN : 2 ≤ N)
    (hu : ∀ i, |u i| ≤ 1) (hamp : 0 ≤ amp) (hB0 : 0 ≤ B) (s : St)
    (hB : LatBounded s.grid N l B) :
    LatBounded (diamondStep u N l h amp (squareStep u N l h amp s)).grid N h
      (B + 2 * amp) := by
  obtain ⟨sq1, sq2⟩ := squareStep_props u N l h amp B hl hh hdvd hN hu hamp s
    (fun a b ha hb hda hdb => hB a b ha hb hda hdb)
  have hread : ∀ a b, a < N → b < N →
      (∃ α β, a = h * α ∧ b = h * β ∧ (α + β) % 2 = 0) →
      |(squareStep u N l h amp s).grid a b| ≤ B + amp := by
    rintro a b ha hb ⟨α, β, rfl, rfl, hev⟩
    rcases Nat.even_or_odd α with hα | hα
    · have hα2 : α % 2 = 0 := Nat.even_iff.mp hα
      have hβ2 : β % 2 = 0 := by omega
      have hda : l ∣ h * α := by
        refine ⟨α / 2, ?_⟩
        rw [hl]
        have e : α = 2 * (α / 2) := by omega
        calc h * α = h * (2 * (α / 2)) := by rw [← e]
          _ = 2 * h * (α / 2) := by ring
      have hdb : l ∣ h * β := by
        refine ⟨β / 2, ?_⟩
        rw [hl]
        have e : β = 2 * (β / 2) := by omega
        calc h * β = h * (2 * (β / 2)) := by rw [← e]
          _ = 2 * h * (β / 2) := by ring
      rw [sq1 _ _ hda hdb]
      have hb1 := hB _ _ ha hb hda hdb
      linarith
    · have hα2 : α % 2 = 1 := Nat.odd_iff.mp hα
      have hβ2 : β % 2 = 1 := by omega
      exact sq2 α β hα2 hβ2 ha hb
  obtain ⟨d1, d2, d3⟩ := diamondFold_props u N l h amp (B + amp)
    (squareStep u N l h amp s) hl hh hu hamp (by linarith) hread
    (diamondCells N l h) (fun c hc => hc) (squareStep u N l h amp s)
    (fun a b _ => rfl)
  intro a b ha hb hda hdb
  obtain ⟨α, rfl⟩ := hda
  obtain ⟨β, rfl⟩ := hdb
  rcases Nat.even_or_odd (α + β) with hev | hod
  · have hev2 : (α + β) % 2 = 0 := Nat.even_iff.mp hev
    unfold diamondStep
    rw [d1 _ _ ⟨α, β, rfl, rfl, hev2⟩]
    have hb1 := hread _ _ ha hb ⟨α, β, rfl, rfl, hev2⟩
    linarith
  · have hod2 : (α + β) % 2 = 1 := Nat.odd_iff.mp hod
    have hmem := diamondCells_coverage hh hl hod2 ha hb
    have hb1 := d3 (h * α, h * β) hmem
    simp only at hb1
    unfold diamondStep
    calc |((diamondCells N l h).foldl (diamondWrite u N h amp)
          (squareStep u N l h amp s)).grid (h * α) (h * β)| ≤ B + amp + amp := hb1
      _ = B + 2 * amp := by ring

/-- The whole generation loop: starting from a `2^j`-lattice bounded by
`B`, the final grid is bounded by `B` plus the geometric amplitude sum. -/
lemma genFrom_latBounded (u : ℕ → ℚ) (N : ℕ) (r : ℚ) (hu : ∀ i, |u i| ≤ 1)
    (hr : 0 ≤ r) (hN : 2 ≤ N) :
    ∀ j : ℕ, ∀ (amp B : ℚ) (s : St), 0 ≤ amp → 0 ≤ B → 2 ^ j ∣ N - 1 →
      LatBounded s.grid N (2 ^ j) B →
      LatBounded (genFrom u N r (2 ^ j) amp s).grid N 1
        (B + 2 * amp * (∑ i ∈ Finset.range j, r ^ i)) := by
  intro j
  induction j with
  | zero =>
    intro amp B s hamp hB0 hdvd hB
    rw [pow_zero, genFrom]
    norm_num
    exact fun x y hx hy _ _ => hB x y hx hy (one_dvd x) (one_dvd y)
  | succ n ih =>
    intro amp B s hamp hB0 hdvd hB
    rw [genFrom]
    have h1 : (1:ℕ) ≤ 2 ^ n := Nat.one_le_two_pow
    have h2 : (2:ℕ) ^ (n + 1) = 2 ^ n * 2 := by rw [pow_succ]
    have h3 : 1 < 2 ^ (n + 1) := by omega
    have h4 : 2 ^ (n + 1) / 2 = 2 ^ n := by omega
    simp only [h3, if_true, h4]
    have hstep := iter_latBounded u N (2 ^ (n + 1)) (2 ^ n) amp B (by omega) h1 hdvd hN
      hu hamp hB0 s hB
    have hrec := ih (amp * r) (B + 2 * amp)
      (diamondStep u N (2 ^ (n + 1)) (2 ^ n) amp (squareStep u N (2 ^ (n + 1)) (2 ^ n) amp s))
      (mul_nonneg hamp hr) (by linarith)
      (dvd_trans (pow_dvd_pow 2 (Nat.le_succ n)) hdvd) hstep
    have heq : B + 2 * amp + 2 * (amp * r) * (∑ i ∈ Finset.range n, r ^ i) =
        B + 2 * amp * (∑ i ∈ Finset.range (n + 1), r ^ i) := by
      rw [geom_sum_succ]
      ring
    rw [← heq]
    exact hrec

/-- After the corner reset, the coarsest lattice (the four corners) is
bounded by 0. -/
lemma reset_latBounded (N k : ℕ) (hN : N = 2 ^ k + 1) (g : ℕ → ℕ → ℚ) :
    LatBounded (reset_canvas_corners N g) N (2 ^ k) 0 := by
  have hpow : (1:ℕ) ≤ 2 ^ k := Nat.one_le_two_pow
  intro x y hx hy hdx hdy
  have hcx : x = 0 ∨ x = N - 1 := by
    obtain ⟨m, rfl⟩ := hdx
    have hm : m ≤ 1 := by
      by_contra hm2
      have h2 : 2 ≤ m := by omega
      have h3 : 2 ^ k * 2 ≤ 2 ^ k * m := Nat.mul_le_mul_left _ h2
      omega
    interval_cases m
    · left; omega
    · right; omega
  have hcy : y = 0 ∨ y = N - 1 := by
    obtain ⟨m, rfl⟩ := hdy
    have hm : m ≤ 1 := by
      by_contra hm2
      have h2 : 2 ≤ m := by omega
      have h3 : 2 ^ k * 2 ≤ 2 ^ k * m := Nat.mul_le_mul_left _ h2
      omega
    interval_cases m
    · left; omega
    · right; omega
  rw [reset_corner_zero N g x y (by omega) ⟨hcx, hcy⟩, abs_zero]

/-! ## Claim theorems: bounded noise accumulation -/

/-- C7: for every grid `N = 2^k + 1`, unit noise draws bounded by 1 (so
each noise sample is bounded by the amplitude passed to it), nonnegative
initial amplitude `A` and decay factor `r = 2^(-roughness)`, every cell
after a full regeneration pass lies within the geometric-series bound
`± 2·A·Σ_{i<k} r^i` accumulated from the decaying per-iteration
amplitudes. -/
theorem generation_bounded_accumulation (N k : ℕ) (hN : N = 2 ^ k + 1) (hk : 1 ≤ k)
    (u : ℕ → ℚ) (hu : ∀ i, |u i| ≤ 1) (r A : ℚ) (hr : 0 ≤ r) (hA : 0 ≤ A)
    (g : ℕ → ℕ → ℚ) (n : ℕ) (x y : ℕ) (hx : x < N) (hy : y < N) :
    |(generate_terrain u N r A ⟨reset_canvas_corners N g, n⟩).grid x y| ≤
      2 * A * (∑ i ∈ Finset.range k, r ^ i) := by
  have hpow : (1:ℕ) ≤ 2 ^ k := Nat.one_le_two_pow
  have hN2 : 2 ≤ N := by omega
  have hN1 : N - 1 = 2 ^ k := by omega
  have hmain := genFrom_latBounded u N r hu hr hN2 k A 0
    ⟨reset_canvas_corners N g, n⟩ hA le_rfl (hN1 ▸ dvd_refl _)
    (reset_latBounded N k hN g)
  have hfin := hmain x y hx hy (one_dvd x) (one_dvd y)
  unfold generate_terrain
  rw [hN1]
  calc |(genFrom u N r (2 ^ k) A ⟨reset_canvas_corners N g, n⟩).grid x y| ≤
      0 + 2 * A * (∑ i ∈ Finset.range k, r ^ i) := hfin
    _ = 2 * A * (∑ i ∈ Finset.range k, r ^ i) := by ring

theorem generation_bounded_accumulation_witness :
    |(generate_terrain (fun _ => 1) 3 (1/2) 50
        ⟨reset_canvas_corners 3 (fun _ _ => 7), 0⟩).grid 1 1| ≤
      2 * 50 * (∑ i ∈ Finset.range 1, (1/2 : ℚ) ^ i) :=
  generation_bounded_accumulation 3 1 (by norm_num) (by norm_num) (fun _ => 1)
    (fun i => by norm_num) (1/2) 50 (by norm_num) (by norm_num) (fun _ _ => 7) 0 1 1
    (by norm_num) (by norm_num)

/-! ## Bounding-box scan lemmas -/

lemma scanBounds_decomp (pts : List Vec2) : ∀ mm : ℚ × ℚ × ℚ × ℚ,
    pts.foldl
      (fun mm p => (min mm.1 p.x, max mm.2.1 p.x, min mm.2.2.1 p.y, max mm.2.2.2 p.y)) mm =
      (pts.foldl (fun m p => min m p.x) mm.1,
        pts.foldl (fun m p => max m p.x) mm.2.1,
        pts.foldl (fun m p => min m p.y) mm.2.2.1,
        pts.foldl (fun m p => max m p.y) mm.2.2.2) := by
  induction pts with
  | nil => intro mm; rfl
  | cons p pts ih => intro mm; rw [List.foldl_cons, ih]; rfl

lemma foldl_min_le_init (f : Vec2 → ℚ) (pts : List Vec2) :
    ∀ m : ℚ, pts.foldl (fun a p => min a (f p)) m ≤ m := by
  induction pts with
  | nil => intro m; exact le_refl m
  | cons p pts ih =>
    intro m
    rw [List.foldl_cons]
    exact le_trans (ih _) (min_le_left _ _)

lemma foldl_max_init_le (f : Vec2 → ℚ) (pts : List Vec2) :
    ∀ m : ℚ, m ≤ pts.foldl (fun a p => max a (f p)) m := by
  induction pts with
  | nil => intro m; exact le_refl m
  | cons p pts ih =>
    intro m
    rw [List.foldl_cons]
    exact le_trans (le_max_left _ _) (ih _)

lemma foldl_min_le_mem (f : Vec2 → ℚ) (pts : List Vec2) :
    ∀ (m : ℚ) (p : Vec2), p ∈ pts → pts.foldl (fun a p => min a (f p)) m ≤ f p := by
  induction pts with
  | nil => intro _ p hp; exact absurd hp (List.not_mem_nil p)
  | cons q pts ih =>
    intro m p hp
    rw [List.foldl_cons]
    rcases List.mem_cons.mp hp with rfl | hmem
    · exact le_trans (foldl_min_le_init f pts _) (min_le_right _ _)
    · exact ih _ p hmem

lemma foldl_max_mem_le (f : Vec2 → ℚ) (pts : List Vec2) :
    ∀ (m : ℚ) (p : Vec2), p ∈ pts → f p ≤ pts.foldl (fun a p => max a (f p)) m := by
  induction pts with
  | nil => intro _ p hp; exact absurd hp (List.not_mem_nil p)
  | cons q pts ih =>
    intro m p hp
    rw [List.foldl_cons]
    rcases List.mem_cons.mp hp with rfl | hmem
    · exact le_trans (le_max_right _ _) (foldl_max_init_le f pts _)
    · exact ih _ p hmem

lemma foldl_min_cases (f : Vec2 → ℚ) (pts : List Vec2) :
    ∀ m : ℚ, pts.foldl (fun a p => min a (f p)) m = m ∨
      ∃ p ∈ pts, pts.foldl (fun a p => min a (f p)) m = f p := by
  induction pts with
  | nil => intro m; exact Or.inl rfl
  | cons q pts ih =>
    intro m
    rw [List.foldl_cons]
    rcases ih (min m (f q)) with heq | ⟨p, hp, heq⟩
    · rcases min_cases m (f q) with ⟨hmin, _⟩ | ⟨hmin, _⟩
      · exact Or.inl (by rw [heq, hmin])
      · exact Or.inr ⟨q, List.mem_cons_self q pts, by rw [heq, hmin]⟩
    · exact Or.inr ⟨p, List.mem_cons_of_mem q hp, heq⟩

lemma foldl_max_cases (f : Vec2 → ℚ) (pts : List Vec2) :
    ∀ m : ℚ, pts.foldl (fun a p => max a (f p)) m = m ∨
      ∃ p ∈ pts, pts.foldl (fun a p => max a (f p)) m = f p := by
  induction pts with
  | nil => intro m; exact Or.inl rfl
  | cons q pts ih =>
    intro m
    rw [List.foldl_cons]
    rcases ih (max m (f q)) with heq | ⟨p, hp, heq⟩
    · rcases max_cases m (f q) with ⟨hmax, _⟩ | ⟨hmax, _⟩
      · exact Or.inl (by rw [heq, hmax])
      · exact Or.inr ⟨q, List.mem_cons_self q pts, by rw [heq, hmax]⟩
    · exact Or.inr ⟨p, List.mem_cons_of_mem q hp, heq⟩

/-- With a nondegenerate projected bounding box, the view fitter
computes the min-of-two-axis-scales transform. -/
lemma cvp_some (pts : List Vec2) (mnx mxx mny mxy : ℚ)
    (hscan : scanBounds pts = (mnx, mxx, mny, mxy))
    (hwne : mxx - mnx ≠ 0) (hhne : mxy - mny ≠ 0) :
    calculate_view_parameters pts = some
      ⟨min (700 / (mxx - mnx)) (510 / (mxy - mny)),
        (800 - (mxx - mnx) * min (700 / (mxx - mnx)) (510 / (mxy - mny))) / 2 -
          mnx * min (700 / (mxx - mnx)) (510 / (mxy - mny)),
        (610 - (mxy - mny) * min (700 / (mxx - mnx)) (510 / (mxy - mny))) / 2 + 90 -
          mny * min (700 / (mxx - mnx)) (510 / (mxy - mny))⟩ := by
  simp only [calculate_view_parameters, hscan, SCREEN_WIDTH, SCREEN_HEIGHT, SCREEN_MARGIN,
    UI_HEIGHT, fdiv, minOpt, hwne, hhne, if_false, ite_false]
  norm_num

/-! ## Claim theorems: view fitting -/

/-- C3: for a heightfield whose projected bounding box has positive
width and height, the fitter returns `scale = min(availW/projW,
availH/projH)`; mapping any projected vertex through scale, offsets and
the vertical flip lands in `[50, 750] × [50, 560]` (margin 50, viewport
800×700, UI band 90), and the transformed bounding box touches both
bounds of at least one axis. -/
theorem view_fit_tight_containment (N : ℕ) (proj : ℕ → ℕ → ℚ → Vec2) (g : ℕ → ℕ → ℚ)
    (mnx mxx mny mxy : ℚ)
    (hscan : scanBounds (projectedVertices N proj g) = (mnx, mxx, mny, mxy))
    (hsent : ∀ q ∈ projectedVertices N proj g,
      -(10 ^ 9 : ℚ) < q.x ∧ q.x < 10 ^ 9 ∧ -(10 ^ 9 : ℚ) < q.y ∧ q.y < 10 ^ 9)
    (hw : 0 < mxx - mnx) (hh : 0 < mxy - mny)
    (p : Vec2) (hp : p ∈ projectedVertices N proj g) :
    ∃ t, calculate_view_parameters (projectedVertices N proj g) = some t ∧
      t.render_scale = min (700 / (mxx - mnx)) (510 / (mxy - mny)) ∧
      50 ≤ (screenPoint t p).x ∧ (screenPoint t p).x ≤ 750 ∧
      50 ≤ (screenPoint t p).y ∧ (screenPoint t p).y ≤ 560 ∧
      (((∃ q ∈ projectedVertices N proj g, (screenPoint t q).x = 50) ∧
        (∃ q ∈ projectedVertices N proj g, (screenPoint t q).x = 750)) ∨
       ((∃ q ∈ projectedVertices N proj g, (screenPoint t q).y = 50) ∧
        (∃ q ∈ projectedVertices N proj g, (screenPoint t q).y = 560))) := by
  have hcvp := cvp_some (projectedVertices N proj g) mnx mxx mny mxy hscan
    (ne_of_gt hw) (ne_of_gt hh)
  set sc := min (700 / (mxx - mnx)) (510 / (mxy - mny)) with hsc
  have hdec := scanBounds_decomp (projectedVertices N proj g)
    (10 ^ 9, -10 ^ 9, 10 ^ 9, -10 ^ 9)
  rw [scanBounds, hdec] at hscan
  simp only [Prod.mk.injEq] at hscan
  obtain ⟨e1, e2, e3, e4⟩ := hscan
  have hminx : ∀ q ∈ projectedVertices N proj g, mnx ≤ q.x := by
    intro q hq
    rw [← e1]
    exact foldl_min_le_mem (fun v => v.x) _ _ q hq
  have hmaxx : ∀ q ∈ projectedVertices N proj g, q.x ≤ mxx := by
    intro q hq
    rw [← e2]
    exact foldl_max_mem_le (fun v => v.x) _ _ q hq
  have hminy : ∀ q ∈ projectedVertices N proj g, mny ≤ q.y := by
    intro q hq
    rw [← e3]
    exact foldl_min_le_mem (fun v => v.y) _ _ q hq
  have hmaxy' : ∀ q ∈ projectedVertices N proj g, q.y ≤ mxy := by
    intro q hq
    rw [← e4]
    exact foldl_max_mem_le (fun v => v.y) _ _ q hq
  have hsx : 0 < 700 / (mxx - mnx) := div_pos (by norm_num) hw
  have hsy : 0 < 510 / (mxy - mny) := div_pos (by norm_num) hh
  have hsc0 : 0 < sc := lt_min hsx hsy
  have hscw : (mxx - mnx) * sc ≤ 700 := by
    have h5 : sc ≤ 700 / (mxx - mnx) := min_le_left _ _
    rw [le_div_iff₀ hw] at h5
    linarith
  have hsch : (mxy - mny) * sc ≤ 510 := by
    have h5 : sc ≤ 510 / (mxy - mny) := min_le_right _ _
    rw [le_div_iff₀ hh] at h5
    linarith
  refine ⟨_, hcvp, rfl, ?_, ?_, ?_, ?_, ?_⟩
  · have m1 : 0 ≤ (p.x - mnx) * sc := mul_nonneg (by linarith [hminx p hp]) hsc0.le
    simp only [screenPoint, SCREEN_HEIGHT]
    linarith
  · have m2 : (p.x - mnx) * sc ≤ (mxx - mnx) * sc :=
      mul_le_mul_of_nonneg_right (by linarith [hmaxx p hp]) hsc0.le
    simp only [screenPoint, SCREEN_HEIGHT]
    linarith
  · have m3 : (p.y - mny) * sc ≤ (mxy - mny) * sc :=
      mul_le_mul_of_nonneg_right (by linarith [hmaxy' p hp]) hsc0.le
    simp only [screenPoint, SCREEN_HEIGHT]
    linarith
  · have m4 : 0 ≤ (p.y - mny) * sc := mul_nonneg (by linarith [hminy p hp]) hsc0.le
    simp only [screenPoint, SCREEN_HEIGHT]
    linarith
  · have hqmin : ∃ q ∈ projectedVertices N proj g, q.x = mnx := by
      rcases foldl_min_cases (fun v => v.x) (projectedVertices N proj g) (10 ^ 9) with
        hcase | ⟨q, hq, hqeq⟩
      · rw [e1] at hcase
        have h6 := hminx p hp
        have h7 := (hsent p hp).2.1
        linarith
      · exact ⟨q, hq, by rw [← hqeq, e1]⟩
    have hqmax : ∃ q ∈ projectedVertices N proj g, q.x = mxx := by
      rcases foldl_max_cases (fun v => v.x) (projectedVertices N proj g) (-10 ^ 9) with
        hcase | ⟨q, hq, hqeq⟩
      · rw [e2] at hcase
        have h6 := hmaxx p hp
        have h7 := (hsent p hp).1
        linarith
      · exact ⟨q, hq, by rw [← hqeq, e2]⟩
    have hqminy : ∃ q ∈ projectedVertices N proj g, q.y = mny := by
      rcases foldl_min_cases (fun v => v.y) (projectedVertices N proj g) (10 ^ 9) with
        hcase | ⟨q, hq, hqeq⟩
      · rw [e3] at hcase
        have h6 := hminy p hp
        have h7 := (hsent p hp).2.2.2
        linarith
      · exact ⟨q, hq, by rw [← hqeq, e3]⟩
    have hqmaxy : ∃ q ∈ projectedVertices N proj g, q.y = mxy := by
      rcases foldl_max_cases (fun v => v.y) (projectedVertices N proj g) (-10 ^ 9) with
        hcase | ⟨q, hq, hqeq⟩
      · rw [e4] at hcase
        have h6 := hmaxy' p hp
        have h7 := (hsent p hp).2.2.1
        linarith
      · exact ⟨q, hq, by rw [← hqeq, e4]⟩
    rcases le_total (700 / (mxx - mnx)) (510 / (mxy - mny)) with hxy | hyx
    · left
      have hprod : (mxx - mnx) * sc = 700 := by
        rw [hsc, min_eq_left hxy]
        field_simp
      obtain ⟨q1, hq1, hq1x⟩ := hqmin
      obtain ⟨q2, hq2, hq2x⟩ := hqmax
      constructor
      · refine ⟨q1, hq1, ?_⟩
        simp only [screenPoint, SCREEN_HEIGHT]
        rw [hq1x]
        linear_combination (-1/2 : ℚ) * hprod
      · refine ⟨q2, hq2, ?_⟩
        simp only [screenPoint, SCREEN_HEIGHT]
        rw [hq2x]
        linear_combination (1/2 : ℚ) * hprod
    · right
      have hprod : (mxy - mny) * sc = 510 := by
        rw [hsc, min_eq_right hyx]
        field_simp
      obtain ⟨q1, hq1, hq1y⟩ := hqmaxy
      obtain ⟨q2, hq2, hq2y⟩ := hqminy
      constructor
      · refine ⟨q1, hq1, ?_⟩
        simp only [screenPoint, SCREEN_HEIGHT]
        rw [hq1y]
        linear_combination (-1/2 : ℚ) * hprod
      · refine ⟨q2, hq2, ?_⟩
        simp only [screenPoint, SCREEN_HEIGHT]
        rw [hq2y]
        linear_combination (1/2 : ℚ) * hprod

theorem view_fit_tight_containment_witness :
    ∃ t, calculate_view_parameters (projectedVertices 2
        (fun x y _ => (⟨(x : ℚ), (y : ℚ)⟩ : Vec2)) (fun _ _ => (0 : ℚ))) = some t ∧
      t.render_scale = min (700 / (1 - 0)) (510 / (1 - 0)) ∧
      50 ≤ (screenPoint t ⟨1, 0⟩).x ∧ (screenPoint t ⟨1, 0⟩).x ≤ 750 ∧
      50 ≤ (screenPoint t ⟨1, 0⟩).y ∧ (screenPoint t ⟨1, 0⟩).y ≤ 560 ∧
      (((∃ q ∈ projectedVertices 2 (fun x y _ => (⟨(x : ℚ), (y : ℚ)⟩ : Vec2))
            (fun _ _ => (0 : ℚ)), (screenPoint t q).x = 50) ∧
        (∃ q ∈ projectedVertices 2 (fun x y _ => (⟨(x : ℚ), (y : ℚ)⟩ : Vec2))
            (fun _ _ => (0 : ℚ)), (screenPoint t q).x = 750)) ∨
       ((∃ q ∈ projectedVertices 2 (fun x y _ => (⟨(x : ℚ), (y : ℚ)⟩ : Vec2))
            (fun _ _ => (0 : ℚ)), (screenPoint t q).y = 50) ∧
        (∃ q ∈ projectedVertices 2 (fun x y _ => (⟨(x : ℚ), (y : ℚ)⟩ : Vec2))
            (fun _ _ => (0 : ℚ)), (screenPoint t q).y = 560))) := by
  have hlist : projectedVertices 2 (fun x y _ => (⟨(x : ℚ), (y : ℚ)⟩ : Vec2))
      (fun _ _ => (0 : ℚ)) = [⟨0, 0⟩, ⟨1, 0⟩, ⟨0, 1⟩, ⟨1, 1⟩] := by
    norm_num [projectedVertices, List.range_succ]
  refine view_fit_tight_containment 2 _ _ 0 1 0 1 ?_ ?_ (by norm_num) (by norm_num)
    ⟨1, 0⟩ ?_
  · rw [hlist]
    norm_num [scanBounds, min_def, max_def]
  · rw [hlist]
    intro q hq
    simp only [List.mem_cons, List.not_mem_nil, or_false] at hq
    rcases hq with rfl | rfl | rfl | rfl <;> norm_num
  · rw [hlist]
    simp
